import Mathlib

/-!
# Verification of the aives segmentation-and-windowed-scheduling pipeline

A shallow embedding, in Lean 4, of the core text-segmentation and
windowed-scheduling logic of the repository (src-tauri/src/ckokorostream.rs,
src-tauri/src/ckokoros2.rs, src-tauri/src/stream.rs), together with proofs of
the ordering, window-bound, failure-handling, and segmentation properties
stated in the specification.

Representation choices:
* Rust `&str` / `String` values are modelled as `List Char` (`Str` below).
* The segmenter's `current_chunk` string is always a single-space join of the
  whitespace-free words accumulated so far (the source builds it by
  `push(' ')` + `push_str(word)` and flushes `current_chunk.trim()`), so
  chunks are modelled as lists of words; the produced chunk string is
  recovered by `joinWords`.
* Rust `usize` values that stay small (indices, counters) are modelled as
  `Nat`; the `usize::MAX` sentinel of the closest-split searches is modelled
  by `Option Nat` with `none` standing for "no distance recorded yet".
* A Rust panic is modelled by returning `none` from an `Option`-valued
  function.
-/

/-- Rust `&str`, modelled as a list of characters. -/
abbrev Str := List Char

/-- Convenience conversion from a Lean string literal to `Str`. -/
def str (s : String) : Str := s.data

/-- `BREAK_WORDS` from ckokorostream.rs lines 24-26: break words used for
chunk splitting. -/
def BREAK_WORDS : List Str :=
  [str "and", str "or", str "but", str "&", str "because", str "if",
   str "since", str "though", str "although", str "however", str "which"]

/-- Rust `str::to_lowercase`, restricted to the per-character lowering that
matters for the ASCII break-word lexicon. -/
def toLowerStr (w : Str) : Str := w.map Char.toLower

/-- Rust `str::ends_with(c: char)`. -/
def endsWithChar (w : Str) (c : Char) : Bool := w.getLast? == some c

/-- Whitespace test used by the model of `split_whitespace` (the source uses
Unicode whitespace; inputs of interest are ASCII). -/
def isWS (c : Char) : Bool := c.isWhitespace

/-- Accumulator worker for `splitWS`: `acc` is the (whitespace-free) word
currently being accumulated. -/
def splitWSGo : Str → Str → List Str
  | [], acc => if acc.isEmpty then [] else [acc]
  | c :: cs, acc =>
      if isWS c then (if acc.isEmpty then [] else [acc]) ++ splitWSGo cs []
      else splitWSGo cs (acc ++ [c])

/-- Rust `str::split_whitespace`: maximal runs of non-whitespace characters. -/
def splitWS (s : Str) : List Str := splitWSGo s []

/-- Join a list of words with single spaces: the string form of a chunk, as
built by the source's `words.join(" ")` / space-separated accumulation. -/
def joinWords : List Str → Str
  | [] => []
  | [w] => w
  | w :: ws => w ++ ' ' :: joinWords ws

/-- Rust `str::trim` (needed only to decide emptiness of a chunk). -/
def trimStr (s : Str) : Str :=
  ((s.dropWhile isWS).reverse.dropWhile isWS).reverse

/-- `is_numbered_list_item` (ckokorostream.rs lines 133-136): the regex
`^\(?[0-9]+[.\)\:],?$` — an optional `(`, one or more ASCII digits, one of
`.`, `)`, `:`, and an optional trailing `,`. -/
def is_numbered_list_item (word : Str) : Bool :=
  let body := match word with
    | '(' :: rest => rest
    | w => w
  let ds := body.takeWhile Char.isDigit
  let rest := body.dropWhile Char.isDigit
  !ds.isEmpty &&
    (match rest with
     | [p] => p == '.' || p == ')' || p == ':'
     | [p, ','] => p == '.' || p == ')' || p == ':'
     | _ => false)

/-- Pass 1 of `split_text_into_speech_chunks` (ckokorostream.rs lines 49-94),
on the word list of the input. `acc` is the word list of `current_chunk`,
`wc` is `word_count`. Each flushed chunk is the (nonempty) list of its
words; the source flushes `current_chunk.trim().to_string()`, which for
whitespace-free words is `joinWords` of the accumulated words. -/
def pass1Go (wpc : Nat) : List Str → List Str → Nat → List (List Str)
  | [], acc, _ => if acc.isEmpty then [] else [acc]
  | w :: ws, acc, wc =>
      let isNum := is_numbered_list_item w
      let brokeBefore := isNum && !acc.isEmpty
      let acc1 := if brokeBefore then [w] else acc ++ [w]
      let wc1 := (if brokeBefore then 0 else wc) + 1
      let uncond := endsWithChar w '.' || endsWithChar w '!' || endsWithChar w '?'
        || endsWithChar w ':' || endsWithChar w ';'
      let cond := endsWithChar w ','
      if uncond || isNum || (cond && decide (wc1 ≥ wpc)) then
        (if brokeBefore then [acc] else []) ++ [acc1] ++ pass1Go wpc ws [] 0
      else
        (if brokeBefore then [acc] else []) ++ pass1Go wpc ws acc1 wc1

/-- Distance to the chunk's center, as computed in the source:
`if i < center { center - i } else { i - center }`. -/
def distTo (center i : Nat) : Nat := if i < center then center - i else i - center

/-- Loop of `find_closest_punctuation` (ckokorostream.rs lines 213-228).
`i` is the enumeration index of the head of the remaining word list; `best`
is `closest_pos`, `minDist` is `min_distance` (`none` = `usize::MAX`). -/
def fcpGo (center : Nat) : Nat → List Str → Option Nat → Option Nat → Option Nat
  | _, [], best, _ => best
  | i, w :: rest, best, minDist =>
      if endsWithChar w ',' then
        let d := distTo center i
        if (match minDist with | none => true | some m => decide (d < m)) then
          fcpGo center (i + 1) rest (some (i + 1)) (some d)
        else
          fcpGo center (i + 1) rest best minDist
      else
        fcpGo center (i + 1) rest best minDist

/-- `find_closest_punctuation` (ckokorostream.rs lines 213-228), specialised
to the only punctuation list the source passes, `[","]`: the returned
position is `i + 1` for the comma-ending word at index `i` closest to
`center` (earliest wins ties, since the source updates on strict `<`). -/
def find_closest_punctuation (words : List Str) (center : Nat) : Option Nat :=
  fcpGo center 0 words none none

/-- Loop of `find_closest_break_word` (ckokorostream.rs lines 231-246): like
`fcpGo` but matching lowercased whole tokens against the lexicon and
recording `i` itself (the break word starts the second half). -/
def fcbGo (center : Nat) (breakWords : List Str) :
    Nat → List Str → Option Nat → Option Nat → Option Nat
  | _, [], best, _ => best
  | i, w :: rest, best, minDist =>
      if breakWords.contains (toLowerStr w) then
        let d := distTo center i
        if (match minDist with | none => true | some m => decide (d < m)) then
          fcbGo center breakWords (i + 1) rest (some i) (some d)
        else
          fcbGo center breakWords (i + 1) rest best minDist
      else
        fcbGo center breakWords (i + 1) rest best minDist

/-- `find_closest_break_word` (ckokorostream.rs lines 231-246). -/
def find_closest_break_word (words : List Str) (center : Nat)
    (breakWords : List Str) : Option Nat :=
  fcbGo center breakWords 0 words none none

/-- `split_long_chunk_with_depth` (ckokorostream.rs lines 138-210), on the
word list of the chunk (the source recomputes `chunk.split_whitespace()`,
which for a chunk represented by its words is the word list itself).
If the punctuation position fails the `pos >= 3 && pos < words.len()` guard
the source falls through to the break-word search, which the `punctSplit`
intermediate below reproduces. -/
def split_long_chunk_with_depth (chunk : List Str) (threshold : Nat)
    (use_punctuation : Bool) (depth : Nat) : List (List Str) :=
  if depth ≥ 3 then [chunk]
  else if chunk.length < threshold then [chunk]
  else
    let center := chunk.length / 2
    let punctSplit : Option Nat :=
      if use_punctuation then
        match find_closest_punctuation chunk center with
        | some pos => if 3 ≤ pos ∧ pos < chunk.length then some pos else none
        | none => none
      else none
    match punctSplit with
    | some pos =>
        split_long_chunk_with_depth (chunk.take pos) threshold use_punctuation (depth + 1)
          ++ split_long_chunk_with_depth (chunk.drop pos) threshold use_punctuation (depth + 1)
    | none =>
        match find_closest_break_word chunk center BREAK_WORDS with
        | some pos =>
            if 3 ≤ pos ∧ pos < chunk.length then
              split_long_chunk_with_depth (chunk.take pos) threshold use_punctuation (depth + 1)
                ++ split_long_chunk_with_depth (chunk.drop pos) threshold use_punctuation (depth + 1)
            else [chunk]
        | none => [chunk]
termination_by 3 - depth
decreasing_by all_goals omega

/-- `split_long_chunk_with_depth` with an explicit recursion budget `fuel`:
`fuel = 0` cuts the recursion off (returning the chunk unchanged).  The body
is identical to `split_long_chunk_with_depth`; `splitLong_eq_fuel` below
shows a budget of `3 - depth` recursion levels always suffices, which is
the depth-cap termination guarantee. -/
def splitLongFuel : Nat → List Str → Nat → Bool → Nat → List (List Str)
  | 0, chunk, _, _, _ => [chunk]
  | fuel + 1, chunk, threshold, use_punctuation, depth =>
      if depth ≥ 3 then [chunk]
      else if chunk.length < threshold then [chunk]
      else
        let center := chunk.length / 2
        let punctSplit : Option Nat :=
          if use_punctuation then
            match find_closest_punctuation chunk center with
            | some pos => if 3 ≤ pos ∧ pos < chunk.length then some pos else none
            | none => none
          else none
        match punctSplit with
        | some pos =>
            splitLongFuel fuel (chunk.take pos) threshold use_punctuation (depth + 1)
              ++ splitLongFuel fuel (chunk.drop pos) threshold use_punctuation (depth + 1)
        | none =>
            match find_closest_break_word chunk center BREAK_WORDS with
            | some pos =>
                if 3 ≤ pos ∧ pos < chunk.length then
                  splitLongFuel fuel (chunk.take pos) threshold use_punctuation (depth + 1)
                    ++ splitLongFuel fuel (chunk.drop pos) threshold use_punctuation (depth + 1)
                else [chunk]
            | none => [chunk]

/-- Pass 2 of `split_text_into_speech_chunks` (ckokorostream.rs lines
99-105): threshold 12, punctuation allowed for the first two chunks only. -/
def secondPass (chunks : List (List Str)) : List (List Str)  :=
  (chunks.enum.map (fun p => split_long_chunk_with_depth p.2 12 (decide (p.1 < 2)) 0)).flatten

/-- Pass 3 of `split_text_into_speech_chunks` (ckokorostream.rs lines
108-127) at pair `(c1, c2 :: rest)`: move a trailing break word of the
current chunk `c1` (which may already have received a word from its left
neighbour) to the front of the next chunk, then continue rightwards. -/
def thirdGo (c1 : List Str) : List (List Str) → List (List Str)
  | [] => [c1]
  | c2 :: rest =>
      match c1.getLast? with
      | some lw =>
          if BREAK_WORDS.contains (toLowerStr lw) && decide (c1.length > 1) then
            c1.dropLast :: thirdGo (lw :: c2) rest
          else
            c1 :: thirdGo c2 rest
      | none => c1 :: thirdGo c2 rest

/-- Pass 3 of `split_text_into_speech_chunks`: the
`for i in 0..final_chunks.len() - 1` loop, for a nonempty chunk list. -/
def thirdPassGo : List (List Str) → List (List Str)
  | [] => []
  | c1 :: rest => thirdGo c1 rest

/-- `split_text_into_speech_chunks` (ckokorostream.rs lines 48-130; the copy
in ckokoros2.rs lines 30-112 is identical). Returns `none` exactly when the
source panics: pass 3 runs `for i in 0..final_chunks.len() - 1`, and when
`final_chunks` is empty the `usize` subtraction `0 - 1` underflows (overflow
panic in debug builds; in release the wrapped bound makes
`final_chunks[0]` an out-of-bounds panic). -/
def split_text_into_speech_chunks (text : Str) (words_per_chunk : Nat) :
    Option (List Str) :=
  let chunks := pass1Go words_per_chunk (splitWS text) [] 0
  let final_chunks := secondPass chunks
  if final_chunks.isEmpty then none
  else some ((thirdPassGo final_chunks).map joinWords)

/-- `split_text_into_speech_chunks` with the pass-2 recursion given its
sufficient budget of 3 levels explicitly; equal to the original by
`split_text_eq_fuel`, and fully evaluable by the kernel. -/
def split_text_fuel (text : Str) (words_per_chunk : Nat) : Option (List Str) :=
  let chunks := pass1Go words_per_chunk (splitWS text) [] 0
  let final_chunks :=
    (chunks.enum.map (fun p => splitLongFuel 3 p.2 12 (decide (p.1 < 2)) 0)).flatten
  if final_chunks.isEmpty then none
  else some ((thirdPassGo final_chunks).map joinWords)

/-! ## The windowed scheduler

The scheduler loop of stream.rs lines 83-224 / ckokorostream.rs lines
543-679 is modelled as a transition system.  Its state mirrors the loop's
local variables; a `dispatch` step is one successful `task_rx.try_recv()`
iteration of the inner fill loop (guarded by
`pending_chunks.len() < window_size`), and a `deliver` step is one
resolution of the head-of-window task `pending_chunks.remove(&next_to_send)`
(the source only ever awaits the task at `next_to_send`; tasks completing
out of order stay in the `BTreeMap` untouched).  Whether a task has
`is_finished()` at a given poll is environment-controlled, so delivery
steps are enabled nondeterministically — every completion order of the
synthesis tasks is a schedule of this system.  The outcome of task `i`
(`Ok` payload vs. synthesis error / join error) is the environment
parameter `ok i`; on `Ok` the index is emitted to the Sink
(`audio_tx.send((task_id, pcm_data))` / the `audio_stream_chunk` event),
on error the source only logs, and in both cases `next_to_send` and
`chunks_processed` advance by 1. -/

/-- The scheduler loop's mutable state (stream.rs lines 86-92):
`counter` is `chunk_counter`, `pending` the key set of `pending_chunks`,
`cursor` is `next_to_send`, `delivered` the indices emitted to the Sink so
far, `processed` is `chunks_processed`. -/
structure SchedState where
  counter : Nat
  pending : Finset Nat
  cursor : Nat
  delivered : List Nat
  processed : Nat
deriving DecidableEq

/-- Initial scheduler state (stream.rs lines 86-92). -/
def SchedState.init : SchedState := ⟨0, ∅, 0, [], 0⟩

/-- One transition of the scheduler for `k` queued tasks, pool size
`window`, and per-task outcome `ok`. -/
inductive SchedStep (k window : Nat) (ok : Nat → Bool) : SchedState → SchedState → Prop
  /-- Fill: `task_rx.try_recv()` succeeds while
  `pending_chunks.len() < window_size` and tasks remain; the task's id equals
  `chunk_counter` (tasks are queued in order on a FIFO channel), a worker is
  selected, the synthesis future is inserted under key `chunk_counter`, and
  `chunk_counter` is incremented (stream.rs lines 97-162). -/
  | dispatch (s : SchedState) (hw : s.pending.card < window) (hk : s.counter < k) :
      SchedStep k window ok s
        { counter := s.counter + 1
          pending := insert s.counter s.pending
          cursor := s.cursor
          delivered := s.delivered
          processed := s.processed }
  /-- Drain: the task at key `next_to_send` is finished and is removed; on
  `Ok` its index is emitted to the Sink, on a synthesis or join error the
  chunk is skipped; either way `next_to_send` and `chunks_processed`
  advance by 1 (stream.rs lines 176-196, ckokorostream.rs lines 628-667). -/
  | deliver (s : SchedState) (hc : s.cursor ∈ s.pending) :
      SchedStep k window ok s
        { counter := s.counter
          pending := s.pending.erase s.cursor
          cursor := s.cursor + 1
          delivered := if ok s.cursor then s.delivered ++ [s.cursor] else s.delivered
          processed := s.processed + 1 }

/-- States reachable by the scheduler loop from its initial state. -/
def SchedReachable (k window : Nat) (ok : Nat → Bool) (s : SchedState) : Prop :=
  Relation.ReflTransGen (SchedStep k window ok) SchedState.init s

/-- Loop exit (stream.rs lines 205-207 / ckokorostream.rs lines 670-675):
every queued task has been dispatched and the window has drained. -/
def SchedTerminal (k : Nat) (s : SchedState) : Prop :=
  s.counter = k ∧ s.pending = ∅

/-- Events observed by the Delivery Sink. -/
inductive SinkEvent
  | chunk (index : Nat)
  | streamEnd
deriving DecidableEq, Repr

/-- The full event sequence the Sink has seen once the loop has exited: the
per-chunk deliveries in order, then the terminal `audio_stream_end` /
termination-sentinel emission (stream.rs line 275, ckokorostream.rs lines
697-702). -/
def finalSinkEvents (s : SchedState) : List SinkEvent :=
  s.delivered.map SinkEvent.chunk ++ [SinkEvent.streamEnd]

/-! ## The worker pool (Instance Selector) -/

/-- Lower-case hex digit. -/
def hexDigit (n : Nat) : Char :=
  if n < 10 then Char.ofNat ('0'.toNat + n) else Char.ofNat ('a'.toNat + (n - 10))

/-- Hex digits of `n`, most significant first, onto `acc`; `fuel ≥ n + 1`
always suffices since the argument is divided by 16 at every step. -/
def toHexGo : Nat → Nat → Str → Str
  | 0, _, acc => acc
  | fuel + 1, n, acc =>
      if n < 16 then hexDigit n :: acc
      else toHexGo fuel (n / 16) (hexDigit (n % 16) :: acc)

/-- Rust `format!("{:02x}", n)`: lower-case hex, zero-padded to width 2. -/
def format02x (n : Nat) : Str :=
  let s := toHexGo (n + 1) n []
  if s.length < 2 then '0' :: s else s

/-- `TTSWorkerPool` (ckokorostream.rs lines 356-379), with the synthesis
handles abstracted to an arbitrary type. -/
structure TTSWorkerPool (α : Type) where
  tts_instances : List α

/-- `TTSWorkerPool::get_instance` (ckokorostream.rs lines 368-372):
`index = worker_id % len`, label `format!("{:02x}", index)`.  `none` models
the panic of `% 0` / the out-of-bounds index on an empty pool. -/
def TTSWorkerPool.get_instance {α : Type} (pool : TTSWorkerPool α)
    (worker_id : Nat) : Option (α × Str) :=
  if pool.tts_instances.length = 0 then none
  else
    (pool.tts_instances.get? (worker_id % pool.tts_instances.length)).map
      (fun inst => (inst, format02x (worker_id % pool.tts_instances.length)))

/-- `TTSWorkerPool::instance_count` (ckokorostream.rs lines 374-376). -/
def TTSWorkerPool.instance_count {α : Type} (pool : TTSWorkerPool α) : Nat :=
  pool.tts_instances.length

/-! ## The HTTP streaming path (stream.rs) -/

/-- The chunk list synthesized by the HTTP path: the segmenter's chunks with
an empty sentinel chunk appended (stream.rs lines 21-24,
`chunks.push(String::new())`). -/
def httpChunks (text : Str) (words_per_chunk : Nat) : Option (List Str) :=
  (split_text_into_speech_chunks text words_per_chunk).map (fun cs => cs ++ [[]])

/-- Payload produced by the task for one chunk (stream.rs lines 116-159): a
whitespace-only chunk resolves immediately to an empty byte vector without
invoking synthesis; otherwise the synthesis capability `synth` supplies the
PCM bytes. -/
def taskPayload (synth : Str → List Nat) (chunk : Str) : List Nat :=
  if (trimStr chunk).isEmpty then [] else synth chunk

/-- The ordered payload sequence placed on the audio channel when every task
succeeds: the `total` per-index payloads in index order (deliveries happen
in index order by the scheduler model above), followed by the termination
sentinel `audio_tx.send((total_chunks, vec![]))` (stream.rs line 275). -/
def orderedResults (total : Nat) (payload : Nat → List Nat) : List (List Nat) :=
  (List.range total).map payload ++ [[]]

/-- The HTTP response stream (stream.rs lines 281-295): each message's bytes
pass through until the first empty payload, which is mapped to an error and
cuts the stream via `take_while`. -/
def responseStream (msgs : List (List Nat)) : List (List Nat) :=
  msgs.takeWhile (fun d => !d.isEmpty)

/-- The punctuation split point the center-splitter would accept: the
closest-to-center comma position, subject to the
`pos >= 3 && pos < words.len()` guard (ckokorostream.rs lines 160-161). -/
def qualifyingPunct (chunk : List Str) : Option Nat :=
  match find_closest_punctuation chunk (chunk.length / 2) with
  | some pos => if 3 ≤ pos ∧ pos < chunk.length then some pos else none
  | none => none

/-- The break-word split point the center-splitter would accept, subject to
the same guard (ckokorostream.rs lines 185-186). -/
def qualifyingBreak (chunk : List Str) : Option Nat :=
  match find_closest_break_word chunk (chunk.length / 2) BREAK_WORDS with
  | some pos => if 3 ≤ pos ∧ pos < chunk.length then some pos else none
  | none => none

/-- "No qualifying split point": neither the punctuation search (when
enabled) nor the break-word search yields an accepted position. -/
def noQualifyingSplit (chunk : List Str) (use_punctuation : Bool) : Prop :=
  (use_punctuation = true → qualifyingPunct chunk = none) ∧
  qualifyingBreak chunk = none

/-- Loop invariant of `find_closest_punctuation` over the processed prefix
`all`: either nothing has been recorded and no processed word ends in a
comma, or `best`/`minDist` record a comma-ending word of minimal distance
to the center (`best` holding the index *after* it). -/
def fcpInv (center : Nat) (all : List Str) (best minDist : Option Nat) : Prop :=
  (best = none ∧ minDist = none ∧
    ∀ j w, all.get? j = some w → endsWithChar w ',' = false)
  ∨ (∃ jsel wsel, all.get? jsel = some wsel ∧ endsWithChar wsel ',' = true ∧
      best = some (jsel + 1) ∧ minDist = some (distTo center jsel) ∧
      ∀ j w, all.get? j = some w → endsWithChar w ',' = true →
        distTo center jsel ≤ distTo center j)

/-- Whitespace collapse: the text reduced to its words joined by single
spaces (what the spec calls the "trimmed-whitespace-collapsed" form). -/
def collapseWS (s : Str) : Str := joinWords (splitWS s)

/-- Scenario C's chunk: 20 words, none a break word, with the single comma
ending the tenth word. -/
def scenC20 : List Str :=
  splitWS (str "alpha beta gamma delta epsilon zeta eta theta iota kappa, lambda mu nu xi omicron pi rho sigma tau upsilon")

/-! ## Segmenter: fueled evaluation -/

/-- A recursion budget of `3 - depth` levels (so 3 levels from the initial
call at depth 0) always suffices for the center-splitter: the fueled and
the original recursion agree whenever the budget is at least `3 - depth`. -/
theorem splitLong_eq_fuel (threshold : Nat) (u : Bool) :
    ∀ (fuel : Nat) (chunk : List Str) (depth : Nat), 3 - depth ≤ fuel →
      splitLongFuel fuel chunk threshold u depth =
        split_long_chunk_with_depth chunk threshold u depth := by
  intro fuel
  induction fuel with
  | zero =>
    intro chunk depth h
    have hd : depth ≥ 3 := by omega
    rw [splitLongFuel, split_long_chunk_with_depth, if_pos hd]
  | succ n ih =>
    intro chunk depth h
    rw [split_long_chunk_with_depth]
    by_cases hd : depth ≥ 3
    · rw [splitLongFuel, if_pos hd, if_pos hd]
    · have hrec : 3 - (depth + 1) ≤ n := by omega
      rw [splitLongFuel, if_neg hd, if_neg hd]
      by_cases hlen : chunk.length < threshold
      · rw [if_pos hlen, if_pos hlen]
      · rw [if_neg hlen, if_neg hlen]
        dsimp only
        cases hu : u with
        | true =>
          rw [hu] at ih
          cases hfp : find_closest_punctuation chunk (chunk.length / 2) with
          | some pos =>
            by_cases hg : 3 ≤ pos ∧ pos < chunk.length
            · simp only [if_true, if_pos hg, ih _ _ hrec]
            · simp only [if_true, if_neg hg]
              cases hfb : find_closest_break_word chunk (chunk.length / 2) BREAK_WORDS with
              | some pos' =>
                by_cases hg' : 3 ≤ pos' ∧ pos' < chunk.length
                · simp only [if_pos hg', ih _ _ hrec]
                · simp only [if_neg hg']
              | none => rfl
          | none =>
            simp only [if_true]
            cases hfb : find_closest_break_word chunk (chunk.length / 2) BREAK_WORDS with
            | some pos' =>
              by_cases hg' : 3 ≤ pos' ∧ pos' < chunk.length
              · simp only [if_pos hg', ih _ _ hrec]
              · simp only [if_neg hg']
            | none => rfl
        | false =>
          rw [hu] at ih
          simp only [Bool.false_eq_true, if_false]
          cases hfb : find_closest_break_word chunk (chunk.length / 2) BREAK_WORDS with
          | some pos' =>
            by_cases hg' : 3 ≤ pos' ∧ pos' < chunk.length
            · simp only [if_pos hg', ih _ _ hrec]
            · simp only [if_neg hg']
          | none => rfl

/-- The segmenter is computed by its fueled variant. -/
theorem split_text_eq_fuel (text : Str) (wpc : Nat) :
    split_text_into_speech_chunks text wpc = split_text_fuel text wpc := by
  have hmap : ∀ p : Nat × List Str,
      split_long_chunk_with_depth p.2 12 (decide (p.1 < 2)) 0 =
        splitLongFuel 3 p.2 12 (decide (p.1 < 2)) 0 :=
    fun p => (splitLong_eq_fuel 12 (decide (p.1 < 2)) 3 p.2 0 (by omega)).symm
  unfold split_text_into_speech_chunks split_text_fuel secondPass
  simp only [hmap]

/-! ## Claim theorems: segmenter evaluations -/

/-- **C2** (failing evaluation): the segmenter does *not* return an empty
chunk sequence on empty (or whitespace-only) input — it panics, because with
no words `final_chunks` is empty and the pass-3 loop bound
`final_chunks.len() - 1` underflows `usize` (modelled by `none`). -/
theorem C2_segmenter_panics_on_wordless_input :
    split_text_into_speech_chunks (str "") 10 = none ∧
    split_text_into_speech_chunks (str "   ") 10 = none ∧
    splitWS (str "") = [] ∧ splitWS (str "   ") = [] :=
  ⟨(split_text_eq_fuel _ _).trans (by decide),
   (split_text_eq_fuel _ _).trans (by decide), by decide, by decide⟩

/-- **C3 counterexample**: segmenting `"1. First item 2. Second item 3.
Third item"` with the default configuration does not produce three chunks
(it produces six). -/
theorem C3_scenarioB_counterexample :
    (split_text_into_speech_chunks
        (str "1. First item 2. Second item 3. Third item") 10).map List.length
      ≠ some 3 := by
  rw [split_text_eq_fuel]
  decide

/-- **C3 (amended)**: a token matching the numbered list item pattern forces
a break before it when the current accumulation is non-empty — and, since a
numbered token also satisfies the break-*after* condition, it is flushed as a
chunk of its own; hence Scenario B's input yields six chunks, each numbered
marker standing alone before its item text. -/
theorem C3_numbered_break (wpc : Nat) (w : Str) (ws : List Str)
    (acc : List Str) (wc : Nat)
    (hnum : is_numbered_list_item w = true) (hacc : acc ≠ []) :
    pass1Go wpc (w :: ws) acc wc = acc :: [w] :: pass1Go wpc ws [] 0 ∧
    split_text_into_speech_chunks
        (str "1. First item 2. Second item 3. Third item") 10 =
      some [str "1.", str "First item", str "2.", str "Second item",
            str "3.", str "Third item"] := by
  constructor
  · have hacc' : acc.isEmpty = false := by
      cases acc with
      | nil => exact absurd rfl hacc
      | cons a l => rfl
    simp [pass1Go, hnum, hacc']
  · rw [split_text_eq_fuel]
    decide

/-- Witness for C3 (amended): the numbered token `2.` breaks a nonempty
accumulation before itself and forms its own chunk. -/
theorem C3_numbered_break_witness :
    is_numbered_list_item (str "2.") = true ∧ ([str "x"] : List Str) ≠ [] ∧
    pass1Go 10 [str "2."] [str "x"] 1 = [[str "x"], [str "2."]] := by
  refine ⟨by decide, by decide, ?_⟩
  have h := (C3_numbered_break 10 (str "2.") [] [str "x"] 1 (by decide)
    (by decide)).1
  rw [h]
  decide

/-! ## Claim theorems: worker pool -/

/-- `{:02x}` really is two hex digits for any index below 256. -/
theorem format02x_length_two (n : Nat) (h : n < 256) :
    (format02x n).length = 2 := by
  by_cases h16 : n < 16
  · simp [format02x, toHexGo, h16]
  · have hd : n / 16 < 16 := Nat.div_lt_of_lt_mul (by omega)
    obtain ⟨m, rfl⟩ : ∃ m, n = m + 1 := ⟨n - 1, by omega⟩
    simp [format02x, toHexGo, h16, hd]

/-- **C9**: with at least one worker, selection is total and is a pure
function of `worker_id mod pool size`: it yields the instance at that index
together with its zero-padded lower-case hex label, which has exactly two
digits for any index below 256. -/
theorem C9_worker_selection {α : Type} (pool : TTSWorkerPool α) (c : Nat)
    (hpool : 1 ≤ pool.tts_instances.length) :
    (∃ inst, pool.tts_instances.get? (c % pool.tts_instances.length) = some inst ∧
       pool.get_instance c =
         some (inst, format02x (c % pool.tts_instances.length))) ∧
    (∀ c', c % pool.tts_instances.length = c' % pool.tts_instances.length →
       pool.get_instance c = pool.get_instance c') ∧
    (c % pool.tts_instances.length < 256 →
       (format02x (c % pool.tts_instances.length)).length = 2) := by
  have hlen : pool.tts_instances.length ≠ 0 := by omega
  have hidx : c % pool.tts_instances.length < pool.tts_instances.length :=
    Nat.mod_lt _ (by omega)
  refine ⟨⟨pool.tts_instances.get ⟨_, hidx⟩, List.get?_eq_get hidx, ?_⟩, ?_, ?_⟩
  · unfold TTSWorkerPool.get_instance
    rw [if_neg hlen, List.get?_eq_get hidx]
    rfl
  · intro c' hmod
    unfold TTSWorkerPool.get_instance
    rw [hmod]
  · intro h256
    exact format02x_length_two _ h256

/-- Witness for C9: a singleton pool serves dispatch counter 5 with worker
index `5 mod 1 = 0` and label `"00"`. -/
theorem C9_worker_selection_witness :
    1 ≤ (TTSWorkerPool.mk [7] : TTSWorkerPool Nat).tts_instances.length ∧
    (TTSWorkerPool.mk [7] : TTSWorkerPool Nat).get_instance 5 =
      some (7, str "00") := by
  refine ⟨by decide, ?_⟩
  obtain ⟨⟨inst, hget, hres⟩, -, -⟩ :=
    C9_worker_selection (TTSWorkerPool.mk [7] : TTSWorkerPool Nat) 5 (by decide)
  have h7 : ([7] : List Nat).get? (5 % 1) = some 7 := by decide
  have hinst : inst = 7 := (Option.some.inj (h7.symm.trans hget)).symm
  rw [hinst] at hres
  have hfmt : format02x
      (5 % (TTSWorkerPool.mk [7] : TTSWorkerPool Nat).tts_instances.length) =
      str "00" := by decide
  rw [hfmt] at hres
  exact hres

/-! ## Claim theorems: HTTP streaming path -/

/-- `takeWhile` ignores everything after an element failing the predicate. -/
theorem takeWhile_append_stop {α : Type} (p : α → Bool) (x : α)
    (hx : p x = false) :
    ∀ (l l2 : List α), (l ++ x :: l2).takeWhile p = l.takeWhile p := by
  intro l
  induction l with
  | nil => intro l2; simp [List.takeWhile_cons, hx]
  | cons a t ih =>
    intro l2
    by_cases ha : p a <;> simp [List.takeWhile_cons, ha, ih]

/-- **C10**: on the HTTP path an empty sentinel chunk is appended after
segmentation, a whitespace-only chunk's task resolves to an empty payload
without synthesis, and the response stream delivers exactly the payloads
preceding the first empty payload of the ordered result sequence — so a
chunk synthesizing to zero samples is indistinguishable from end-of-stream
and truncates all later chunks, while with all payloads nonempty every
chunk is delivered. -/
theorem C10_http_empty_truncation (total : Nat) (payload : Nat → List Nat)
    (synth : Str → List Nat) (hsent : payload total = []) :
    (∀ text wpc cs, split_text_into_speech_chunks text wpc = some cs →
        httpChunks text wpc = some (cs ++ [[]])) ∧
    taskPayload synth [] = [] ∧
    responseStream (orderedResults (total + 1) payload) =
      ((List.range total).map payload).takeWhile (fun d => !d.isEmpty) ∧
    ((∀ i, i < total → payload i ≠ []) →
      responseStream (orderedResults (total + 1) payload) =
        (List.range total).map payload) := by
  have h3 : responseStream (orderedResults (total + 1) payload) =
      ((List.range total).map payload).takeWhile (fun d => !d.isEmpty) := by
    unfold responseStream orderedResults
    rw [List.range_succ, List.map_append, List.map_singleton, hsent,
      List.append_assoc]
    exact takeWhile_append_stop _ [] rfl _ _
  refine ⟨?_, rfl, h3, ?_⟩
  · intro text wpc cs hcs
    unfold httpChunks
    rw [hcs]
    rfl
  · intro hall
    rw [h3, List.takeWhile_eq_self_iff.mpr]
    intro a ha
    obtain ⟨i, hi, rfl⟩ := List.mem_map.mp ha
    have hne : payload i ≠ [] := hall i (List.mem_range.mp hi)
    cases hp : payload i with
    | nil => exact absurd hp hne
    | cons b t => simp [hp]

/-- Witness for C10: with three real chunks whose middle payload is empty
(and the sentinel at index 3), only the first payload is delivered — the
empty second payload truncates the third. -/
theorem C10_http_empty_truncation_witness :
    (fun i => if i = 0 then [5] else if i = 2 then [7] else ([] : List Nat)) 3
        = [] ∧
    responseStream (orderedResults 4
        (fun i => if i = 0 then [5] else if i = 2 then [7] else [])) = [[5]] := by
  refine ⟨rfl, ?_⟩
  have h := (C10_http_empty_truncation 3
    (fun i => if i = 0 then [5] else if i = 2 then [7] else [])
    (fun _ => []) rfl).2.2.1
  rw [h]
  decide

/-! ## Scheduler invariants -/

/-- The inductive invariant of the scheduler loop: the cursor never passes
the dispatch counter, the counter never passes the task count, the pending
window is exactly the dispatched-but-undelivered interval
`[cursor, counter)`, the delivered indices are exactly the successful ones
below the cursor in increasing order, `chunks_processed` equals the cursor,
and the window never exceeds the pool size. -/
theorem sched_invariant (k window : Nat) (ok : Nat → Bool) (s : SchedState)
    (h : SchedReachable k window ok s) :
    s.cursor ≤ s.counter ∧ s.counter ≤ k ∧
    s.pending = Finset.Ico s.cursor s.counter ∧
    s.delivered = (List.range s.cursor).filter (fun i => ok i) ∧
    s.processed = s.cursor ∧
    s.pending.card ≤ window := by
  induction h with
  | refl => simp [SchedState.init]
  | tail hprev hstep ih =>
    obtain ⟨h1, h2, h3, h4, h5, h6⟩ := ih
    cases hstep with
    | dispatch hw hk =>
      rename_i s
      refine ⟨by dsimp only; omega, by dsimp only; omega, ?_, h4, h5, ?_⟩
      · dsimp only
        rw [h3]
        exact (Nat.Ico_succ_right_eq_insert_Ico h1).symm
      · dsimp only
        calc (insert s.counter s.pending).card ≤ s.pending.card + 1 :=
              Finset.card_insert_le _ _
          _ ≤ window := by omega
    | deliver hc =>
      rename_i s
      have hlt : s.cursor < s.counter := by
        rw [h3, Finset.mem_Ico] at hc; exact hc.2
      refine ⟨by dsimp only; omega, h2, ?_, ?_, by dsimp only; omega, ?_⟩
      · dsimp only
        rw [h3]
        exact Nat.Ico_succ_left_eq_erase_Ico.symm
      · dsimp only
        rw [List.range_succ, List.filter_append, h4]
        cases hok : ok s.cursor <;> simp [hok]
      · dsimp only
        calc (s.pending.erase s.cursor).card ≤ s.pending.card :=
              Finset.card_erase_le
          _ ≤ window := h6

/-- A step that dispatches (increments the counter) can only fire when the
window is strictly below the pool size. -/
theorem sched_dispatch_guard (k window : Nat) (ok : Nat → Bool)
    (s s' : SchedState) (hstep : SchedStep k window ok s s')
    (hctr : s'.counter = s.counter + 1) : s.pending.card < window := by
  cases hstep with
  | dispatch hw hk => exact hw
  | deliver hc => simp at hctr

/-- In a terminal state the cursor has swept the whole index range. -/
theorem sched_terminal_cursor (k window : Nat) (ok : Nat → Bool)
    (s : SchedState) (h : SchedReachable k window ok s)
    (ht : SchedTerminal k s) : s.cursor = k := by
  obtain ⟨h1, h2, h3, -, -, -⟩ := sched_invariant k window ok s h
  obtain ⟨hk, hp⟩ := ht
  rw [hk] at h3
  by_contra hne
  have hlt : s.cursor < k := by omega
  have : s.cursor ∈ s.pending := by rw [h3, Finset.mem_Ico]; omega
  rw [hp] at this
  exact absurd this (Finset.not_mem_empty _)

/-! ## Claim theorems: scheduler -/

/-- **C1**: in every reachable state of the scheduler, the indices delivered
to the Sink are exactly the successful indices below the reorder cursor in
strictly increasing order (so delivery order equals input chunk order for
every completion order and outcome assignment), every step advances the
cursor by at most 1, and when every chunk succeeds a terminal state has
delivered exactly `0, 1, …, k-1`. -/
theorem C1_sink_order (k window : Nat) (ok : Nat → Bool) (s : SchedState)
    (h : SchedReachable k window ok s) :
    s.delivered = (List.range s.cursor).filter (fun i => ok i) ∧
    List.Sorted (· < ·) s.delivered ∧
    (∀ s', SchedStep k window ok s s' →
      s'.cursor = s.cursor ∨ s'.cursor = s.cursor + 1) ∧
    ((∀ i, ok i = true) → SchedTerminal k s → s.delivered = List.range k) := by
  obtain ⟨h1, h2, h3, h4, h5, h6⟩ := sched_invariant k window ok s h
  refine ⟨h4, ?_, ?_, ?_⟩
  · rw [h4]
    exact (List.sorted_lt_range s.cursor).filter _
  · intro s' hstep
    cases hstep with
    | dispatch hw hk => left; rfl
    | deliver hc => right; rfl
  · intro hall ht
    have hcur : s.cursor = k := sched_terminal_cursor k window ok s h ht
    rw [h4, hcur, List.filter_eq_self.mpr]
    intro a _
    exact hall a

/-- Witness for C1: a complete 2-chunk run with pool size 1 and all
synthesis succeeding reaches a terminal state whose delivered sequence is
`[0, 1] = range 2`. -/
theorem C1_sink_order_witness :
    SchedReachable 2 1 (fun _ => true) ⟨2, ∅, 2, [0, 1], 2⟩ ∧
    (⟨2, ∅, 2, [0, 1], 2⟩ : SchedState).delivered = List.range 2 := by
  have t0 : SchedReachable 2 1 (fun _ => true) SchedState.init :=
    Relation.ReflTransGen.refl
  have t1 := t0.tail (SchedStep.dispatch SchedState.init (by decide) (by decide))
  have t2 := t1.tail (SchedStep.deliver _ (by decide))
  have t3 := t2.tail (SchedStep.dispatch _ (by decide) (by decide))
  have t4 := t3.tail (SchedStep.deliver _ (by decide))
  have hreach : SchedReachable 2 1 (fun _ => true) ⟨2, ∅, 2, [0, 1], 2⟩ := t4
  exact ⟨hreach,
    (C1_sink_order 2 1 (fun _ => true) _ hreach).2.2.2 (fun _ => rfl) ⟨rfl, rfl⟩⟩

/-- **C4**: in every reachable state the number of in-flight tasks is at
most the pool size, and any step that dispatches a new task (increments the
dispatch counter) can only fire when the window is strictly below the pool
size. -/
theorem C4_window_bound (k window : Nat) (ok : Nat → Bool) (s : SchedState)
    (h : SchedReachable k window ok s) :
    s.pending.card ≤ window ∧
    (∀ s', SchedStep k window ok s s' → s'.counter = s.counter + 1 →
      s.pending.card < window) :=
  ⟨(sched_invariant k window ok s h).2.2.2.2.2,
   fun s' hstep hctr => sched_dispatch_guard k window ok s s' hstep hctr⟩

/-- Witness for C4: a state with one in-flight task under pool size 1. -/
theorem C4_window_bound_witness :
    SchedReachable 2 1 (fun _ => true) ⟨1, {0}, 0, [], 0⟩ ∧
    (⟨1, {0}, 0, [], 0⟩ : SchedState).pending.card ≤ 1 := by
  have t0 : SchedReachable 2 1 (fun _ => true) SchedState.init :=
    Relation.ReflTransGen.refl
  have t1 : SchedReachable 2 1 (fun _ => true) ⟨1, {0}, 0, [], 0⟩ :=
    t0.tail (SchedStep.dispatch SchedState.init (by decide) (by decide))
  exact ⟨t1, (C4_window_bound 2 1 (fun _ => true) _ t1).1⟩

/-- **C5**: a failed chunk contributes no payload yet the cursor passes it,
later successes are still delivered in order, and on termination the Sink
sees the successful chunks in order followed by the end-of-stream signal;
in particular with chunks 0 and 2 succeeding and chunk 1 failing the Sink
sees chunk 0, chunk 2, stream end. -/
theorem C5_failure_skip (k window : Nat) (ok : Nat → Bool) (s : SchedState)
    (h : SchedReachable k window ok s) :
    (∀ i, ok i = false → i ∉ s.delivered) ∧
    (SchedTerminal k s →
      finalSinkEvents s =
        ((List.range k).filter (fun i => ok i)).map SinkEvent.chunk
          ++ [SinkEvent.streamEnd]) ∧
    (k = 3 → ok 0 = true → ok 1 = false → ok 2 = true → SchedTerminal k s →
      finalSinkEvents s = [SinkEvent.chunk 0, SinkEvent.chunk 2, SinkEvent.streamEnd]) := by
  obtain ⟨h1, h2, h3, h4, h5, h6⟩ := sched_invariant k window ok s h
  have hterm : SchedTerminal k s →
      finalSinkEvents s =
        ((List.range k).filter (fun i => ok i)).map SinkEvent.chunk
          ++ [SinkEvent.streamEnd] := by
    intro ht
    have hcur : s.cursor = k := sched_terminal_cursor k window ok s h ht
    rw [finalSinkEvents, h4, hcur]
  refine ⟨?_, hterm, ?_⟩
  · intro i hfail hmem
    rw [h4] at hmem
    have h' := (List.mem_filter.mp hmem).2
    simp only [hfail] at h'
    exact Bool.false_ne_true h'
  · intro hk3 h0 h1' h2' ht
    have := hterm ht
    rw [hk3] at this
    have hr : List.range 3 = [0, 1, 2] := rfl
    rw [hr] at this
    simp only [List.filter, h0, h1', h2'] at this
    simpa using this

/-- Witness for C5: a 3-chunk run with pool size 2 where chunk 1 fails and
chunks 0 and 2 succeed reaches a terminal state whose Sink event sequence
is chunk 0, chunk 2, stream end. -/
theorem C5_failure_skip_witness :
    SchedReachable 3 2 (fun i => i != 1) ⟨3, ∅, 3, [0, 2], 3⟩ ∧
    finalSinkEvents ⟨3, ∅, 3, [0, 2], 3⟩ =
      [SinkEvent.chunk 0, SinkEvent.chunk 2, SinkEvent.streamEnd] := by
  have t0 : SchedReachable 3 2 (fun i => i != 1) SchedState.init :=
    Relation.ReflTransGen.refl
  have t1 := t0.tail (SchedStep.dispatch SchedState.init (by decide) (by decide))
  have t2 := t1.tail (SchedStep.dispatch _ (by decide) (by decide))
  have t3 := t2.tail (SchedStep.deliver _ (by decide))
  have t4 := t3.tail (SchedStep.dispatch _ (by decide) (by decide))
  have t5 := t4.tail (SchedStep.deliver _ (by decide))
  have t6 := t5.tail (SchedStep.deliver _ (by decide))
  have hreach : SchedReachable 3 2 (fun i => i != 1) ⟨3, ∅, 3, [0, 2], 3⟩ := t6
  exact ⟨hreach,
    (C5_failure_skip 3 2 (fun i => i != 1) _ hreach).2.2 rfl rfl rfl rfl ⟨rfl, rfl⟩⟩

/-! ## Claim theorems: punctuation-aware splitting (C8) -/

/-- The `find_closest_punctuation` loop maintains `fcpInv` over the
processed prefix. -/
theorem fcpGo_inv (center : Nat) :
    ∀ (ws done : List Str) (best minDist : Option Nat),
      fcpInv center done best minDist →
      ∃ minDist', fcpInv center (done ++ ws)
        (fcpGo center done.length ws best minDist) minDist' := by
  intro ws
  induction ws with
  | nil =>
    intro done best minDist h
    exact ⟨minDist, by simpa using h⟩
  | cons w rest ih =>
    intro done best minDist h
    have hstep : ∀ best' minDist',
        fcpInv center (done ++ [w]) best' minDist' →
        ∃ m', fcpInv center (done ++ w :: rest)
          (fcpGo center (done.length + 1) rest best' minDist') m' := by
      intro best' minDist' h'
      have hres := ih (done ++ [w]) best' minDist' h'
      simpa [List.append_assoc] using hres
    have hjbound : ∀ (j : Nat) (v : Str), (done ++ [w]).get? j = some v →
        j < done.length + 1 := by
      intro j v hget
      obtain ⟨hj, -⟩ := List.get?_eq_some.mp hget
      simpa using hj
    have hat : ∀ (v : Str), (done ++ [w]).get? done.length = some v → v = w := by
      intro v hget
      exact (Option.some.inj ((List.get?_concat_length done w).symm.trans hget)).symm
    rw [fcpGo]
    by_cases hw : endsWithChar w ',' = true
    · rw [if_pos hw]
      dsimp only
      cases hm : minDist with
      | none =>
        rw [if_pos rfl]
        apply hstep
        right
        refine ⟨done.length, w, List.get?_concat_length done w, hw, rfl, rfl, ?_⟩
        intro j v hget hcomma
        rcases Nat.lt_succ_iff_lt_or_eq.mp (hjbound j v hget) with hjlt | hjeq
        · have hgd : done.get? j = some v := by
            rw [List.get?_append hjlt] at hget; exact hget
          rcases h with ⟨-, -, hno⟩ | ⟨jsel, wsel, -, -, -, hmd, -⟩
          · rw [hno j v hgd] at hcomma; exact Bool.noConfusion hcomma
          · rw [hm] at hmd; exact Option.noConfusion hmd
        · subst hjeq; exact Nat.le_refl _
      | some m =>
        have hright : ∃ jsel wsel, done.get? jsel = some wsel ∧
            endsWithChar wsel ',' = true ∧ best = some (jsel + 1) ∧
            m = distTo center jsel ∧
            ∀ j v, done.get? j = some v → endsWithChar v ',' = true →
              distTo center jsel ≤ distTo center j := by
          rcases h with ⟨-, hmd, -⟩ | ⟨jsel, wsel, hg, hc, hb, hmd, hmin⟩
          · rw [hm] at hmd; exact Option.noConfusion hmd
          · rw [hm] at hmd
            exact ⟨jsel, wsel, hg, hc, hb, Option.some.inj hmd, hmin⟩
        obtain ⟨jsel, wsel, hg, hc, hb, hmeq, hmin⟩ := hright
        have hjsel : jsel < done.length := by
          obtain ⟨hj, -⟩ := List.get?_eq_some.mp hg; exact hj
        by_cases hlt : distTo center done.length < m
        · rw [if_pos (by simpa using hlt)]
          apply hstep
          right
          refine ⟨done.length, w, List.get?_concat_length done w, hw, rfl, rfl, ?_⟩
          intro j v hget hcomma
          rcases Nat.lt_succ_iff_lt_or_eq.mp (hjbound j v hget) with hjlt | hjeq
          · have hgd : done.get? j = some v := by
              rw [List.get?_append hjlt] at hget; exact hget
            have := hmin j v hgd hcomma
            omega
          · subst hjeq; exact Nat.le_refl _
        · rw [if_neg (by simpa using hlt)]
          apply hstep
          right
          subst hmeq
          refine ⟨jsel, wsel, ?_, hc, hb, rfl, ?_⟩
          · rw [List.get?_append hjsel]; exact hg
          · intro j v hget hcomma
            rcases Nat.lt_succ_iff_lt_or_eq.mp (hjbound j v hget) with hjlt | hjeq
            · have hgd : done.get? j = some v := by
                rw [List.get?_append hjlt] at hget; exact hget
              exact hmin j v hgd hcomma
            · subst hjeq; omega
    · rw [if_neg hw]
      apply hstep
      have hwf : endsWithChar w ',' = false := by
        cases hval : endsWithChar w ',' with
        | false => rfl
        | true => exact absurd hval hw
      rcases h with ⟨hb, hmd, hno⟩ | ⟨jsel, wsel, hg, hc, hb, hmd, hmin⟩
      · left
        refine ⟨hb, hmd, ?_⟩
        intro j v hget
        rcases Nat.lt_succ_iff_lt_or_eq.mp (hjbound j v hget) with hjlt | hjeq
        · have hgd : done.get? j = some v := by
            rw [List.get?_append hjlt] at hget; exact hget
          exact hno j v hgd
        · subst hjeq; rw [hat v hget]; exact hwf
      · right
        have hjsel : jsel < done.length := by
          obtain ⟨hj, -⟩ := List.get?_eq_some.mp hg; exact hj
        refine ⟨jsel, wsel, ?_, hc, hb, hmd, ?_⟩
        · rw [List.get?_append hjsel]; exact hg
        · intro j v hget hcomma
          rcases Nat.lt_succ_iff_lt_or_eq.mp (hjbound j v hget) with hjlt | hjeq
          · have hgd : done.get? j = some v := by
              rw [List.get?_append hjlt] at hget; exact hget
            exact hmin j v hgd hcomma
          · subst hjeq
            rw [hat v hget] at hcomma
            rw [hwf] at hcomma
            exact Bool.noConfusion hcomma

/-- A chunk with no qualifying split point is returned unchanged, whatever
the threshold and depth. -/
theorem splitLong_no_qualifying (chunk : List Str) (threshold : Nat)
    (u : Bool) (depth : Nat) (h : noQualifyingSplit chunk u) :
    split_long_chunk_with_depth chunk threshold u depth = [chunk] := by
  obtain ⟨hq1, hq2⟩ := h
  rw [split_long_chunk_with_depth]
  by_cases hd : depth ≥ 3
  · rw [if_pos hd]
  · rw [if_neg hd]
    by_cases hlen : chunk.length < threshold
    · rw [if_pos hlen]
    · rw [if_neg hlen]
      dsimp only
      unfold qualifyingBreak at hq2
      cases hu : u with
      | true =>
        rw [hu] at hq1
        have hp := hq1 rfl
        unfold qualifyingPunct at hp
        cases hfp : find_closest_punctuation chunk (chunk.length / 2) with
        | some pos =>
          rw [hfp] at hp
          dsimp only at hp
          by_cases hg : 3 ≤ pos ∧ pos < chunk.length
          · rw [if_pos hg] at hp; exact Option.noConfusion hp
          · simp only [if_true, if_neg hg]
            cases hfb : find_closest_break_word chunk (chunk.length / 2) BREAK_WORDS with
            | some pos' =>
              rw [hfb] at hq2
              dsimp only at hq2
              by_cases hg' : 3 ≤ pos' ∧ pos' < chunk.length
              · rw [if_pos hg'] at hq2; exact Option.noConfusion hq2
              · dsimp only; rw [if_neg hg']
            | none => rfl
        | none =>
          simp only [if_true]
          cases hfb : find_closest_break_word chunk (chunk.length / 2) BREAK_WORDS with
          | some pos' =>
            rw [hfb] at hq2
            dsimp only at hq2
            by_cases hg' : 3 ≤ pos' ∧ pos' < chunk.length
            · rw [if_pos hg'] at hq2; exact Option.noConfusion hq2
            · dsimp only; rw [if_neg hg']
          | none => rfl
      | false =>
        simp only [Bool.false_eq_true, if_false]
        cases hfb : find_closest_break_word chunk (chunk.length / 2) BREAK_WORDS with
        | some pos' =>
          rw [hfb] at hq2
          dsimp only at hq2
          by_cases hg' : 3 ≤ pos' ∧ pos' < chunk.length
          · rw [if_pos hg'] at hq2; exact Option.noConfusion hq2
          · dsimp only; rw [if_neg hg']
        | none => rfl

/-- **C7**: the recursive center-splitter terminates within the depth cap —
cutting the recursion off after `3 - depth` levels (3 levels from a
top-level call) provably changes nothing, for every chunk and starting
depth — and a chunk with no qualifying split point is returned unchanged
as a single-element sequence. -/
theorem C7_depth_cap (chunk : List Str) (threshold : Nat) (u : Bool)
    (depth fuel : Nat) (hfuel : 3 - depth ≤ fuel) :
    splitLongFuel fuel chunk threshold u depth =
      split_long_chunk_with_depth chunk threshold u depth ∧
    (noQualifyingSplit chunk u →
      split_long_chunk_with_depth chunk threshold u depth = [chunk]) :=
  ⟨splitLong_eq_fuel threshold u fuel chunk depth hfuel,
   fun h => splitLong_no_qualifying chunk threshold u depth h⟩

/-- Witness for C7: a 15-word chunk with no comma and no break word is left
unchanged, and its depth-capped evaluation agrees with the recursion. -/
theorem C7_depth_cap_witness :
    3 - 0 ≤ 3 ∧
    splitLongFuel 3 (splitWS (str "one two three four five six seven eight nine ten eleven twelve thirteen fourteen fifteen")) 12 true 0 =
      split_long_chunk_with_depth (splitWS (str "one two three four five six seven eight nine ten eleven twelve thirteen fourteen fifteen")) 12 true 0 ∧
    split_long_chunk_with_depth (splitWS (str "one two three four five six seven eight nine ten eleven twelve thirteen fourteen fifteen")) 12 true 0 =
      [splitWS (str "one two three four five six seven eight nine ten eleven twelve thirteen fourteen fifteen")] := by
  have h := C7_depth_cap (splitWS (str "one two three four five six seven eight nine ten eleven twelve thirteen fourteen fifteen")) 12 true 0 3 (by omega)
  exact ⟨by omega, h.1, h.2 ⟨fun _ => by decide, by decide⟩⟩

/-- **C8**: the punctuation search returns `i + 1` for a comma-ending word
at index `i` of minimal distance to the center (and returns `none` only if
no word ends in a comma); a returned position failing the
`3 ≤ pos < length` guard is rejected (with no break word available the
chunk stays whole); and Scenario C's 20-word chunk with its only comma at
word 10, threshold 12 and punctuation enabled splits after word 10 into two
sub-chunks of 10 words each. -/
theorem C8_punctuation_split (ws : List Str) (center : Nat) :
    (∀ pos, find_closest_punctuation ws center = some pos →
       ∃ i w, pos = i + 1 ∧ ws.get? i = some w ∧ endsWithChar w ',' = true ∧
         ∀ j w', ws.get? j = some w' → endsWithChar w' ',' = true →
           distTo center i ≤ distTo center j) ∧
    (find_closest_punctuation ws center = none →
       ∀ j w, ws.get? j = some w → endsWithChar w ',' = false) ∧
    (∀ chunk threshold depth pos, depth < 3 → threshold ≤ chunk.length →
       find_closest_punctuation chunk (chunk.length / 2) = some pos →
       ¬(3 ≤ pos ∧ pos < chunk.length) →
       find_closest_break_word chunk (chunk.length / 2) BREAK_WORDS = none →
       split_long_chunk_with_depth chunk threshold true depth = [chunk]) ∧
    split_long_chunk_with_depth scenC20 12 true 0 =
      [scenC20.take 10, scenC20.drop 10] ∧
    (scenC20.take 10).length = 10 ∧ (scenC20.drop 10).length = 10 := by
  have base : fcpInv center [] none none :=
    Or.inl ⟨rfl, rfl, fun j w h => by simp at h⟩
  obtain ⟨m', hinv⟩ := fcpGo_inv center ws [] none none base
  have hinv' : fcpInv center ws (find_closest_punctuation ws center) m' := by
    simpa [find_closest_punctuation] using hinv
  refine ⟨?_, ?_, ?_, ?_, by decide, by decide⟩
  · intro pos hpos
    rcases hinv' with ⟨hb, -, -⟩ | ⟨jsel, wsel, hg, hc, hb, -, hmin⟩
    · rw [hpos] at hb; exact Option.noConfusion hb
    · rw [hpos] at hb
      exact ⟨jsel, wsel, Option.some.inj hb, hg, hc, hmin⟩
  · intro hnone
    rcases hinv' with ⟨-, -, hno⟩ | ⟨jsel, wsel, -, -, hb, -, -⟩
    · exact hno
    · rw [hnone] at hb; exact Option.noConfusion hb
  · intro chunk threshold depth pos hdep hth hfp hrej hfb
    apply splitLong_no_qualifying
    constructor
    · intro _
      unfold qualifyingPunct
      rw [hfp]
      dsimp only
      rw [if_neg hrej]
    · unfold qualifyingBreak
      rw [hfb]
  · rw [← splitLong_eq_fuel 12 true 3 scenC20 0 (by omega)]
    decide

/-- Witness for C8: on Scenario C's chunk with center 10 the search returns
position 10, the characterization instantiates there, and the split yields
the two 10-word halves. -/
theorem C8_punctuation_split_witness :
    find_closest_punctuation scenC20 10 = some 10 ∧
    split_long_chunk_with_depth scenC20 12 true 0 =
      [scenC20.take 10, scenC20.drop 10] ∧
    distTo 10 9 ≤ distTo 10 9 := by
  refine ⟨by decide, (C8_punctuation_split scenC20 10).2.2.2.1, ?_⟩
  obtain ⟨i, w, hpos, hget, hcomma, hmin⟩ :=
    (C8_punctuation_split scenC20 10).1 10 (by decide)
  have hi : i = 9 := by omega
  subst hi
  exact hmin 9 w hget hcomma

/-! ## Words and whitespace (toward C6) -/

/-- Every word produced by the whitespace splitter is nonempty and free of
whitespace characters. -/
theorem splitWSGo_word_props :
    ∀ (s acc : Str), (∀ c ∈ acc, isWS c = false) →
      ∀ w ∈ splitWSGo s acc, w ≠ [] ∧ ∀ c ∈ w, isWS c = false := by
  intro s
  induction s with
  | nil =>
    intro acc hacc w hw
    rw [splitWSGo] at hw
    by_cases he : acc.isEmpty
    · rw [if_pos he] at hw; cases hw
    · rw [if_neg he] at hw
      have hw' : w = acc := by simpa using hw
      subst hw'
      exact ⟨by simpa [List.isEmpty_iff] using he, hacc⟩
  | cons c cs ih =>
    intro acc hacc w hw
    rw [splitWSGo] at hw
    by_cases hc : isWS c
    · rw [if_pos hc] at hw
      rcases List.mem_append.mp hw with h1 | h2
      · by_cases he : acc.isEmpty
        · rw [if_pos he] at h1; cases h1
        · rw [if_neg he] at h1
          have hw' : w = acc := by simpa using h1
          subst hw'
          exact ⟨by simpa [List.isEmpty_iff] using he, hacc⟩
      · exact ih [] (by simp) w h2
    · rw [if_neg hc] at hw
      refine ih (acc ++ [c]) ?_ w hw
      intro x hx
      rcases List.mem_append.mp hx with h1 | h2
      · exact hacc x h1
      · have hx' : x = c := by simpa using h2
        subst hx'
        simpa using hc

/-- The whitespace splitter consumes a whitespace-free prefix into the
accumulator. -/
theorem splitWSGo_chars :
    ∀ (w s acc : Str), (∀ c ∈ w, isWS c = false) →
      splitWSGo (w ++ s) acc = splitWSGo s (acc ++ w) := by
  intro w
  induction w with
  | nil => intro s acc _; simp
  | cons c w' ih =>
    intro s acc hw
    have hc : isWS c = false := hw c (by simp)
    rw [List.cons_append, splitWSGo, if_neg (by simp [hc])]
    rw [ih s (acc ++ [c]) (fun x hx => hw x (by simp [hx]))]
    rw [List.append_assoc, List.singleton_append]

/-- `splitWS` is a left inverse of `joinWords` on lists of nonempty
whitespace-free words. -/
theorem splitWS_joinWords :
    ∀ (ws : List Str), (∀ w ∈ ws, w ≠ [] ∧ ∀ c ∈ w, isWS c = false) →
      splitWS (joinWords ws) = ws := by
  intro ws
  induction ws with
  | nil => intro _; rfl
  | cons w ws' ih =>
    intro h
    have hw := h w (by simp)
    cases ws' with
    | nil =>
      show splitWS (joinWords [w]) = [w]
      have h2 : splitWSGo (w ++ []) [] = splitWSGo [] ([] ++ w) :=
        splitWSGo_chars w [] [] hw.2
      rw [List.append_nil, List.nil_append] at h2
      unfold splitWS
      rw [joinWords, h2, splitWSGo,
        if_neg (by simpa [List.isEmpty_iff] using hw.1)]
    | cons w2 ws'' =>
      show splitWS (w ++ ' ' :: joinWords (w2 :: ws'')) = w :: w2 :: ws''
      unfold splitWS
      rw [splitWSGo_chars w (' ' :: joinWords (w2 :: ws'')) [] hw.2,
        List.nil_append, splitWSGo, if_pos (by decide),
        if_neg (by simpa [List.isEmpty_iff] using hw.1)]
      have := ih (fun x hx => h x (by simp [hx]))
      unfold splitWS at this
      rw [this, List.singleton_append]

/-- `joinWords` on a cons with nonempty tail. -/
theorem joinWords_cons (w : Str) (z : List Str) (hz : z ≠ []) :
    joinWords (w :: z) = w ++ ' ' :: joinWords z := by
  cases z with
  | nil => exact absurd rfl hz
  | cons y ys => rfl

/-- Joining a concatenation of nonempty word lists. -/
theorem joinWords_append :
    ∀ (a b : List Str), a ≠ [] → b ≠ [] →
      joinWords (a ++ b) = joinWords a ++ ' ' :: joinWords b := by
  intro a
  induction a with
  | nil => intro b ha _; exact absurd rfl ha
  | cons w a' ih =>
    intro b ha hb
    cases a' with
    | nil => rw [List.singleton_append, joinWords_cons w b hb]; rfl
    | cons w2 a'' =>
      have hne : w2 :: a'' ++ b ≠ [] := by simp
      rw [List.cons_append, joinWords_cons w _ hne, ih b (by simp) hb,
        joinWords_cons w (w2 :: a'') (by simp)]
      simp

/-- Pass 1 only regroups the words: the concatenation of its chunks is the
accumulated words followed by the remaining input words. -/
theorem pass1Go_flatten (wpc : Nat) :
    ∀ (ws acc : List Str) (wc : Nat),
      (pass1Go wpc ws acc wc).flatten = acc ++ ws := by
  intro ws
  induction ws with
  | nil =>
    intro acc wc
    rw [pass1Go]
    by_cases he : acc.isEmpty
    · rw [if_pos he]
      simp [List.isEmpty_iff.mp he]
    · rw [if_neg he]
      simp
  | cons w rest ih =>
    intro acc wc
    rw [pass1Go]
    by_cases hflush : (endsWithChar w '.' || endsWithChar w '!' || endsWithChar w '?'
        || endsWithChar w ':' || endsWithChar w ';') || is_numbered_list_item w
        || (endsWithChar w ',' &&
            decide ((if (is_numbered_list_item w && !acc.isEmpty) = true then 0
              else wc) + 1 ≥ wpc))
    · rw [if_pos hflush]
      by_cases hbb : (is_numbered_list_item w && !acc.isEmpty) = true
      · simp only [if_pos hbb]
        simp [ih]
      · simp only [if_neg hbb]
        simp [ih]
    · rw [if_neg hflush]
      by_cases hbb : (is_numbered_list_item w && !acc.isEmpty) = true
      · simp only [if_pos hbb]
        simp [ih]
      · simp only [if_neg hbb]
        simp [ih]

/-- Every chunk produced by pass 1 is a nonempty word list. -/
theorem pass1Go_ne_nil (wpc : Nat) :
    ∀ (ws acc : List Str) (wc : Nat) (g : List Str),
      g ∈ pass1Go wpc ws acc wc → g ≠ [] := by
  intro ws
  induction ws with
  | nil =>
    intro acc wc g hg
    rw [pass1Go] at hg
    by_cases he : acc.isEmpty
    · rw [if_pos he] at hg; cases hg
    · rw [if_neg he] at hg
      have hg' : g = acc := by simpa using hg
      subst hg'
      simpa [List.isEmpty_iff] using he
  | cons w rest ih =>
    intro acc wc g hg
    rw [pass1Go] at hg
    by_cases hbb : (is_numbered_list_item w && !acc.isEmpty) = true
    · have hacc : acc ≠ [] := by
        have := ((Bool.and_eq_true _ _).mp hbb).2
        simpa [List.isEmpty_iff] using this
      simp only [if_pos hbb] at hg
      split at hg
      · rcases List.mem_append.mp hg with h1 | h2
        · rcases List.mem_append.mp h1 with h1a | h1b
          · have : g = acc := by simpa using h1a
            subst this; exact hacc
          · have : g = [w] := by simpa using h1b
            subst this; simp
        · exact ih [] 0 g h2
      · rcases List.mem_append.mp hg with h1 | h2
        · have : g = acc := by simpa using h1
          subst this; exact hacc
        · exact ih [w] _ g h2
    · simp only [if_neg hbb] at hg
      split at hg
      · rcases List.mem_append.mp hg with h1 | h2
        · have : g = acc ++ [w] := by simpa using h1
          subst this; simp
        · exact ih [] 0 g h2
      · exact ih (acc ++ [w]) _ g hg

/-- The fueled center-splitter only regroups the words of its chunk. -/
theorem splitLongFuel_flatten :
    ∀ (fuel : Nat) (c : List Str) (t : Nat) (u : Bool) (d : Nat),
      (splitLongFuel fuel c t u d).flatten = c := by
  intro fuel
  induction fuel with
  | zero => intro c t u d; simp [splitLongFuel]
  | succ n ih =>
    intro c t u d
    rw [splitLongFuel]
    by_cases hd : d ≥ 3
    · rw [if_pos hd]; simp
    · rw [if_neg hd]
      by_cases hl : c.length < t
      · rw [if_pos hl]; simp
      · rw [if_neg hl]
        dsimp only
        cases hps : (if u = true then
            match find_closest_punctuation c (c.length / 2) with
            | some pos => if 3 ≤ pos ∧ pos < c.length then some pos else none
            | none => none
          else none) with
        | some pos =>
          dsimp only
          rw [List.flatten_append, ih, ih, List.take_append_drop]
        | none =>
          dsimp only
          cases hfb : find_closest_break_word c (c.length / 2) BREAK_WORDS with
          | some pos =>
            dsimp only
            by_cases hg : 3 ≤ pos ∧ pos < c.length
            · rw [if_pos hg, List.flatten_append, ih, ih, List.take_append_drop]
            · rw [if_neg hg]; simp
          | none => simp

/-- The fueled center-splitter never produces an empty sub-chunk from a
nonempty chunk. -/
theorem splitLongFuel_ne_nil :
    ∀ (fuel : Nat) (c : List Str) (t : Nat) (u : Bool) (d : Nat),
      c ≠ [] → ∀ g ∈ splitLongFuel fuel c t u d, g ≠ [] := by
  intro fuel
  induction fuel with
  | zero =>
    intro c t u d hc g hg
    have : g = c := by simpa [splitLongFuel] using hg
    subst this; exact hc
  | succ n ih =>
    intro c t u d hc g hg
    rw [splitLongFuel] at hg
    by_cases hd : d ≥ 3
    · rw [if_pos hd] at hg
      have : g = c := by simpa using hg
      subst this; exact hc
    · rw [if_neg hd] at hg
      by_cases hl : c.length < t
      · rw [if_pos hl] at hg
        have : g = c := by simpa using hg
        subst this; exact hc
      · rw [if_neg hl] at hg
        dsimp only at hg
        have hsplit : ∀ pos, 3 ≤ pos → pos < c.length →
            g ∈ splitLongFuel n (c.take pos) t u (d + 1)
              ++ splitLongFuel n (c.drop pos) t u (d + 1) → g ≠ [] := by
          intro pos h3 hlt hmem
          rcases List.mem_append.mp hmem with hm | hm
          · refine ih (c.take pos) t u (d + 1) ?_ g hm
            have : (c.take pos).length = min pos c.length := List.length_take pos c
            intro hnil
            rw [hnil] at this
            simp at this
            omega
          · refine ih (c.drop pos) t u (d + 1) ?_ g hm
            have : (c.drop pos).length = c.length - pos := List.length_drop pos c
            intro hnil
            rw [hnil] at this
            simp at this
            omega
        cases hps : (if u = true then
            match find_closest_punctuation c (c.length / 2) with
            | some pos => if 3 ≤ pos ∧ pos < c.length then some pos else none
            | none => none
          else none) with
        | some pos =>
          rw [hps] at hg
          dsimp only at hg
          have hguard : 3 ≤ pos ∧ pos < c.length := by
            by_cases hu : u = true
            · rw [if_pos hu] at hps
              cases hfp : find_closest_punctuation c (c.length / 2) with
              | some q =>
                rw [hfp] at hps
                dsimp only at hps
                by_cases hgq : 3 ≤ q ∧ q < c.length
                · rw [if_pos hgq] at hps
                  cases hps; exact hgq
                · rw [if_neg hgq] at hps; cases hps
              | none => rw [hfp] at hps; cases hps
            · rw [if_neg hu] at hps; cases hps
          exact hsplit pos hguard.1 hguard.2 hg
        | none =>
          rw [hps] at hg
          dsimp only at hg
          cases hfb : find_closest_break_word c (c.length / 2) BREAK_WORDS with
          | some pos =>
            rw [hfb] at hg
            dsimp only at hg
            by_cases hg' : 3 ≤ pos ∧ pos < c.length
            · rw [if_pos hg'] at hg
              exact hsplit pos hg'.1 hg'.2 hg
            · rw [if_neg hg'] at hg
              have : g = c := by simpa using hg
              subst this; exact hc
          | none =>
            rw [hfb] at hg
            have : g = c := by simpa using hg
            subst this; exact hc

/-- The center-splitter only regroups the words of its chunk. -/
theorem splitLong_flatten (c : List Str) (t : Nat) (u : Bool) (d : Nat) :
    (split_long_chunk_with_depth c t u d).flatten = c := by
  rw [← splitLong_eq_fuel t u (3 - d) c d (Nat.le_refl _)]
  exact splitLongFuel_flatten (3 - d) c t u d

/-- The center-splitter never produces an empty sub-chunk from a nonempty
chunk. -/
theorem splitLong_ne_nil (c : List Str) (t : Nat) (u : Bool) (d : Nat)
    (hc : c ≠ []) : ∀ g ∈ split_long_chunk_with_depth c t u d, g ≠ [] := by
  rw [← splitLong_eq_fuel t u (3 - d) c d (Nat.le_refl _)]
  exact splitLongFuel_ne_nil (3 - d) c t u d hc

/-- Pass 2 only regroups the words. -/
theorem secondPass_flatten (chunks : List (List Str)) :
    (secondPass chunks).flatten = chunks.flatten := by
  unfold secondPass
  have key : ∀ l : List (Nat × List Str),
      ((l.map (fun p => split_long_chunk_with_depth p.2 12 (decide (p.1 < 2)) 0)).flatten).flatten
        = (l.map Prod.snd).flatten := by
    intro l
    induction l with
    | nil => rfl
    | cons a l ih =>
      rw [List.map_cons, List.flatten_cons, List.flatten_append,
        splitLong_flatten, ih, List.map_cons, List.flatten_cons]
  rw [key, List.enum_map_snd]

/-- Pass 2 never produces an empty chunk from nonempty chunks. -/
theorem secondPass_ne_nil (chunks : List (List Str))
    (h : ∀ g ∈ chunks, g ≠ []) : ∀ g ∈ secondPass chunks, g ≠ [] := by
  unfold secondPass
  intro g hg
  obtain ⟨l, hl, hgl⟩ := List.mem_flatten.mp hg
  obtain ⟨p, hp, rfl⟩ := List.mem_map.mp hl
  have hp2 : p.2 ∈ chunks := by
    have hq := List.mem_enum_iff_getElem?.mp hp
    obtain ⟨hn, heq⟩ := List.getElem?_eq_some.mp hq
    exact heq ▸ List.getElem_mem hn
  exact splitLong_ne_nil p.2 12 (decide (p.1 < 2)) 0 (h _ hp2) g hgl

/-- Pass 3 only regroups the words. -/
theorem thirdGo_flatten :
    ∀ (rest : List (List Str)) (c1 : List Str),
      (thirdGo c1 rest).flatten = c1 ++ rest.flatten := by
  intro rest
  induction rest with
  | nil => intro c1; simp [thirdGo]
  | cons c2 rest' ih =>
    intro c1
    rw [thirdGo]
    cases hlast : c1.getLast? with
    | none => simp [ih]
    | some lw =>
      dsimp only
      by_cases hcond : (BREAK_WORDS.contains (toLowerStr lw)
          && decide (c1.length > 1)) = true
      · rw [if_pos hcond]
        have hne : c1 ≠ [] := by intro h; subst h; simp at hlast
        have hlast' : c1.getLast hne = lw := by
          have := List.getLast?_eq_getLast c1 hne
          rw [this] at hlast
          exact Option.some.inj hlast
        have hsplit : c1.dropLast ++ [lw] = c1 := by
          rw [← hlast']
          exact List.dropLast_append_getLast hne
        rw [List.flatten_cons, ih, List.flatten_cons, ← hsplit]
        simp
      · rw [if_neg hcond]
        simp [ih]

/-- Pass 3 keeps every chunk nonempty. -/
theorem thirdGo_ne_nil :
    ∀ (rest : List (List Str)) (c1 : List Str), c1 ≠ [] →
      (∀ g ∈ rest, g ≠ []) → ∀ g ∈ thirdGo c1 rest, g ≠ [] := by
  intro rest
  induction rest with
  | nil =>
    intro c1 hc1 _ g hg
    have : g = c1 := by simpa [thirdGo] using hg
    subst this; exact hc1
  | cons c2 rest' ih =>
    intro c1 hc1 hrest g hg
    rw [thirdGo] at hg
    cases hlast : c1.getLast? with
    | none =>
      rw [hlast] at hg
      dsimp only at hg
      rcases List.mem_cons.mp hg with h1 | h2
      · subst h1; exact hc1
      · exact ih c2 (hrest c2 (by simp)) (fun x hx => hrest x (by simp [hx])) g h2
    | some lw =>
      rw [hlast] at hg
      dsimp only at hg
      by_cases hcond : (BREAK_WORDS.contains (toLowerStr lw)
          && decide (c1.length > 1)) = true
      · rw [if_pos hcond] at hg
        rcases List.mem_cons.mp hg with h1 | h2
        · subst h1
          have hlen : c1.length > 1 := by
            have := ((Bool.and_eq_true _ _).mp hcond).2
            simpa using this
          have : c1.dropLast.length = c1.length - 1 := List.length_dropLast c1
          intro hnil
          rw [hnil] at this
          simp at this
          omega
        · exact ih (lw :: c2) (by simp) (fun x hx => hrest x (by simp [hx])) g h2
      · rw [if_neg hcond] at hg
        rcases List.mem_cons.mp hg with h1 | h2
        · subst h1; exact hc1
        · exact ih c2 (hrest c2 (by simp)) (fun x hx => hrest x (by simp [hx])) g h2

/-- Pass 3 (wrapper) only regroups the words. -/
theorem thirdPassGo_flatten (l : List (List Str)) :
    (thirdPassGo l).flatten = l.flatten := by
  cases l with
  | nil => rfl
  | cons c rest => rw [thirdPassGo, thirdGo_flatten, List.flatten_cons]

/-- Pass 3 (wrapper) keeps every chunk nonempty. -/
theorem thirdPassGo_ne_nil (l : List (List Str)) (h : ∀ g ∈ l, g ≠ []) :
    ∀ g ∈ thirdPassGo l, g ≠ [] := by
  cases l with
  | nil => intro g hg; cases hg
  | cons c rest =>
    rw [thirdPassGo]
    exact thirdGo_ne_nil rest c (h c (by simp)) (fun x hx => h x (by simp [hx]))

/-- A nonempty list of nonempty word lists flattens to a nonempty list. -/
theorem flatten_ne_nil_of (G : List (List Str)) (hG : G ≠ [])
    (h : ∀ g ∈ G, g ≠ []) : G.flatten ≠ [] := by
  cases G with
  | nil => exact absurd rfl hG
  | cons g G' =>
    have hg := h g (by simp)
    rw [List.flatten_cons]
    intro hnil
    exact hg (List.append_eq_nil.mp hnil).1

/-- Joining the chunk strings equals joining all their words. -/
theorem joinWords_map :
    ∀ (G : List (List Str)), (∀ g ∈ G, g ≠ []) →
      joinWords (G.map joinWords) = joinWords G.flatten := by
  intro G
  induction G with
  | nil => intro _; rfl
  | cons g G' ih =>
    intro h
    cases G' with
    | nil => simp [joinWords]
    | cons g2 G'' =>
      have hg : g ≠ [] := h g (by simp)
      have hG' : ∀ x ∈ g2 :: G'', x ≠ [] := fun x hx => h x (by simp [hx])
      have hfl : (g2 :: G'').flatten ≠ [] := flatten_ne_nil_of _ (by simp) hG'
      rw [List.map_cons, joinWords_cons (joinWords g) _ (by simp), ih hG']
      conv_rhs => rw [List.flatten_cons]
      rw [joinWords_append g _ hg hfl]

/-- **C6**: for every input with at least one word the segmenter succeeds,
and segmentation only partitions the word sequence: the words of the
produced chunks, in order, are exactly the words of the input, so joining
all chunks with single spaces and collapsing whitespace reproduces the
whitespace-collapsed input. -/
theorem C6_segmentation_roundtrip (text : Str) (wpc : Nat)
    (hw : splitWS text ≠ []) :
    ∃ cs, split_text_into_speech_chunks text wpc = some cs ∧
      (cs.map splitWS).flatten = splitWS text ∧
      collapseWS (joinWords cs) = collapseWS text := by
  have hWprops : ∀ w ∈ splitWS text, w ≠ [] ∧ ∀ c ∈ w, isWS c = false :=
    splitWSGo_word_props text [] (by simp)
  have hp1f : (pass1Go wpc (splitWS text) [] 0).flatten = splitWS text := by
    rw [pass1Go_flatten]; rfl
  have hp1n : ∀ g ∈ pass1Go wpc (splitWS text) [] 0, g ≠ [] :=
    fun g hg => pass1Go_ne_nil wpc (splitWS text) [] 0 g hg
  have h2f : (secondPass (pass1Go wpc (splitWS text) [] 0)).flatten
      = splitWS text := by
    rw [secondPass_flatten, hp1f]
  have h2n : ∀ g ∈ secondPass (pass1Go wpc (splitWS text) [] 0), g ≠ [] :=
    secondPass_ne_nil _ hp1n
  have h2ne : secondPass (pass1Go wpc (splitWS text) [] 0) ≠ [] := by
    intro hnil
    rw [hnil] at h2f
    simp at h2f
    exact hw h2f
  have h3f : (thirdPassGo (secondPass (pass1Go wpc (splitWS text) [] 0))).flatten
      = splitWS text := by
    rw [thirdPassGo_flatten, h2f]
  have h3n : ∀ g ∈ thirdPassGo (secondPass (pass1Go wpc (splitWS text) [] 0)),
      g ≠ [] := thirdPassGo_ne_nil _ h2n
  have h3props : ∀ g ∈ thirdPassGo (secondPass (pass1Go wpc (splitWS text) [] 0)),
      ∀ w ∈ g, w ≠ [] ∧ ∀ c ∈ w, isWS c = false := by
    intro g hg w hwg
    apply hWprops
    rw [← h3f]
    exact List.mem_flatten.mpr ⟨g, hg, hwg⟩
  refine ⟨(thirdPassGo (secondPass (pass1Go wpc (splitWS text) [] 0))).map joinWords,
    ?_, ?_, ?_⟩
  · simp only [split_text_into_speech_chunks]
    rw [if_neg (by simpa [List.isEmpty_iff] using h2ne)]
  · rw [List.map_map]
    have hcg : ∀ g ∈ thirdPassGo (secondPass (pass1Go wpc (splitWS text) [] 0)),
        (splitWS ∘ joinWords) g = id g := by
      intro g hg
      exact splitWS_joinWords g (h3props g hg)
    rw [List.map_congr_left hcg, List.map_id]
    exact h3f
  · unfold collapseWS
    rw [joinWords_map _ h3n, h3f, splitWS_joinWords (splitWS text) hWprops]

/-- Witness for C6: the two-word input `"hello world"`. -/
theorem C6_segmentation_roundtrip_witness :
    splitWS (str "hello world") ≠ [] ∧
    ∃ cs, split_text_into_speech_chunks (str "hello world") 10 = some cs ∧
      (cs.map splitWS).flatten = splitWS (str "hello world") ∧
      collapseWS (joinWords cs) = collapseWS (str "hello world") :=
  ⟨by decide, C6_segmentation_roundtrip (str "hello world") 10 (by decide)⟩
